import Mathlib

/-!
Verification development for the livemd streaming Markdown renderer.

The Rust sources are shallowly embedded over `List Char`: a Rust `&str` is
always valid UTF-8, so a list of Unicode scalar values is a faithful
representation of its contents.  Rust's string functions (`find`, `rfind`,
slicing, `len`, `drain`) work with BYTE indices; the embedding keeps those
byte indices explicit, computing them from `Char.utf8Size`.  The source's
occasional `chars().nth(i)` calls, which index by CHARACTER and not by byte,
are embedded as `List.get?`/`l[i]?` on the character list, i.e. exactly as
the source behaves, even where a byte index is (incorrectly) passed to them.

Loops are embedded as fuel-based structural recursions; every fuel argument
used is large enough that the fuel can never run out on the executions the
theorems talk about (each loop iteration consumes at least one character or
advances an index bounded by the byte length).
-/

namespace LiveMd

/-- Byte length of one character when encoded in UTF-8 (from `Char.utf8Size`). -/
def u8 (c : Char) : Nat := c.utf8Size

/-- Byte length of a string, as Rust's `str::len` reports it. -/
def byteLen : List Char → Nat
  | [] => 0
  | c :: r => u8 c + byteLen r

/-- Number of leading characters of `s` that fit entirely in the first `b`
bytes.  When `b` is a UTF-8 boundary of `s` this is exactly the number of
characters encoded before byte `b`. -/
def charsWithin : Nat → List Char → Nat
  | _, [] => 0
  | b, c :: r => if u8 c ≤ b then charsWithin (b - u8 c) r + 1 else 0

/-- Characters fully inside the first `b` bytes (Rust `&buffer[..b]` for a
boundary `b`; Rust panics when `b` is not a boundary, the model truncates
to the boundary below — every theorem uses it at boundaries only). -/
def bytesPrefix (b : Nat) (s : List Char) : List Char := s.take (charsWithin b s)

/-- The prefix removed by Rust's `buffer.drain(..b)` (boundary `b`). -/
def byteTake (b : Nat) (s : List Char) : List Char := s.take (charsWithin b s)

/-- What remains in the buffer after `buffer.drain(..b)` (boundary `b`). -/
def byteDrop (b : Nat) (s : List Char) : List Char := s.drop (charsWithin b s)

/-- Whether byte position `p` is a UTF-8 character boundary of `s`
(0 and the total byte length both count, as in Rust's `str::is_char_boundary`). -/
def isBoundary : List Char → Nat → Bool
  | _, 0 => true
  | [], _ + 1 => false
  | c :: r, p + 1 => if u8 c ≤ p + 1 then isBoundary r (p + 1 - u8 c) else false

/-- The character whose encoding starts exactly at byte `p`, if `p` is the
start of a character. -/
def charAtByte : List Char → Nat → Option Char
  | [], _ => none
  | c :: _, 0 => some c
  | c :: r, p + 1 => if u8 c ≤ p + 1 then charAtByte r (p + 1 - u8 c) else none

/-- Unicode `White_Space` code points: Rust's `char::is_whitespace`. -/
def rustWs (c : Char) : Bool :=
  c.toNat ∈ [0x09, 0x0A, 0x0B, 0x0C, 0x0D, 0x20, 0x85, 0xA0, 0x1680,
    0x2000, 0x2001, 0x2002, 0x2003, 0x2004, 0x2005, 0x2006, 0x2007,
    0x2008, 0x2009, 0x200A, 0x2028, 0x2029, 0x202F, 0x205F, 0x3000]

/-- Rust's `str::trim`: remove whitespace from both ends. -/
def rustTrim (s : List Char) : List Char :=
  ((s.dropWhile rustWs).reverse.dropWhile rustWs).reverse

/-- Remove one trailing carriage return, as `str::lines` does on every
newline-terminated piece. -/
def stripCr (l : List Char) : List Char :=
  match l.reverse with
  | '\r' :: r => r.reverse
  | _ => l

/-- Split on a separator character; always returns at least one piece. -/
def splitOnChar (sep : Char) : List Char → List (List Char)
  | [] => [[]]
  | c :: r =>
    if c = sep then [] :: splitOnChar sep r
    else
      match splitOnChar sep r with
      | [] => [[c]]
      | p :: ps => (c :: p) :: ps

/-- Helper for `rustLines`: every piece except the final one was terminated
by a newline, so its trailing carriage return is stripped; a final empty
piece (i.e. a trailing newline in the input) produces no line. -/
def rustLinesAux : List (List Char) → List (List Char)
  | [] => []
  | [p] => if p = [] then [] else [p]
  | p :: ps => stripCr p :: rustLinesAux ps

/-- Rust's `str::lines`. -/
def rustLines (s : List Char) : List (List Char) := rustLinesAux (splitOnChar '\n' s)

section StripAnsi

/-- Parameter byte of an ANSI escape sequence: the regex class in the range
from 0x30 to 0x3F. -/
def isParamByte (c : Char) : Bool := 0x30 ≤ c.toNat ∧ c.toNat ≤ 0x3F

/-- Intermediate byte: the regex class from 0x20 to 0x2F. -/
def isInterByte (c : Char) : Bool := 0x20 ≤ c.toNat ∧ c.toNat ≤ 0x2F

/-- Final byte: the regex class from 0x40 to 0x7E. -/
def isFinalByte (c : Char) : Bool := 0x40 ≤ c.toNat ∧ c.toNat ≤ 0x7E

/-- If the ANSI escape regex of `strip_ansi` matches at the head of `s`,
return the remainder after the match.  The three character classes are
pairwise disjoint, so the greedy left-to-right match used here agrees with
the regex engine's semantics. -/
def ansiTail (s : List Char) : Option (List Char) :=
  match s with
  | c1 :: c2 :: rest =>
    if c1 = '\x1b' ∧ c2 = '[' then
      match (rest.dropWhile isParamByte).dropWhile isInterByte with
      | c :: r => if isFinalByte c then some r else none
      | [] => none
    else none
  | _ => none

/-- Fuel-based worker for `strip_ansi`; each step consumes at least one
character, so fuel equal to the length never runs out. -/
def stripAnsiAux : Nat → List Char → List Char
  | 0, s => s
  | _ + 1, [] => []
  | fuel + 1, c :: r =>
    match ansiTail (c :: r) with
    | some rest => stripAnsiAux fuel rest
    | none => c :: stripAnsiAux fuel r

/-- `MinimalStreamer::strip_ansi`: delete every match of the escape-sequence
regex, scanning left to right. -/
def strip_ansi (s : List Char) : List Char := stripAnsiAux s.length s

end StripAnsi

section SanitizeBoxes

/-- Character set tested on the candidate top border line (the source string
has a duplicated box-drawing dash; duplication is harmless in a set). -/
def topBorderChars : List Char := ("━──═-+").data

/-- Character set tested on the candidate bottom border line. -/
def botBorderChars : List Char := ("━─═-+").data

/-- First line of the three-line box pattern of `sanitize_boxes`. -/
def boxTop (a : List Char) : Bool :=
  a.contains '┏' || a.contains '┌' || a.contains '╔' ||
    a.any (fun ch => topBorderChars.contains ch)

/-- Middle line of the box pattern: contains some vertical bar. -/
def boxMid (b : List Char) : Bool :=
  b.contains '┃' || b.contains '│' || b.contains '|'

/-- Last line of the three-line box pattern. -/
def boxBot (c : List Char) : Bool :=
  c.contains '┗' || c.contains '└' || c.contains '╚' ||
    c.any (fun ch => botBorderChars.contains ch)

/-- The complete three-line box pattern test. -/
def boxPat (a b c : List Char) : Bool := boxTop a && boxMid b && boxBot c

/-- Inner text of the middle line: the source replaces each bar character
with the empty string (equivalently, filters them out) and trims. -/
def innerText (b : List Char) : List Char :=
  rustTrim (b.filter (fun ch => ¬ (ch = '┃' ∨ ch = '│' ∨ ch = '|')))

/-- Box-drawing characters removed from lines outside a box pattern. -/
def boxStripSet : List Char := ("┏┓┗┛┃━─┌┐└┘│╔╗╚╝═").data

/-- Clean a regular line by dropping the box-drawing characters. -/
def cleanLine (l : List Char) : List Char :=
  l.filter (fun ch => !(boxStripSet.contains ch))

/-- The line-level loop of `sanitize_boxes`: while at least three lines
remain, a matching triple is replaced by blank line, `### inner`, blank
line (or dropped outright when the inner text is empty) and the cursor
jumps past the triple; otherwise the head line is cleaned and kept. -/
def sanitize_boxes_lines : List (List Char) → List (List Char)
  | a :: b :: c :: rest =>
    if boxPat a b c then
      (if innerText b ≠ [] then [[], ("### ").data ++ innerText b, []] else []) ++
        sanitize_boxes_lines rest
    else
      cleanLine a :: sanitize_boxes_lines (b :: c :: rest)
  | a :: rest => cleanLine a :: sanitize_boxes_lines rest
  | [] => []

/-- `MinimalStreamer::sanitize_boxes`: process the lines and re-join them
with newlines. -/
def sanitize_boxes (s : List Char) : List Char :=
  List.intercalate (['\n']) (sanitize_boxes_lines (rustLines s))

/-- The sanitization applied to the buffer on every append inside
`stream_text`: strip ANSI escapes, and, only when box stripping is enabled,
convert/strip boxes. -/
def sanitizeBuffer (stripBoxes : Bool) (s : List Char) : List Char :=
  let s1 := strip_ansi s
  if stripBoxes then sanitize_boxes s1 else s1

end SanitizeBoxes

section FlushBoundary

/-- Leftmost occurrence of `pat` at a character start, returning its byte
offset (Rust's `str::find` — for the ASCII patterns used here a byte-level
match can only start at a character start, so this agrees with Rust) and
the remaining characters after the match. -/
def findPatByteRem (pat : List Char) : List Char → Nat → Option (Nat × List Char)
  | [], acc => if pat = [] then some (acc, []) else none
  | c :: r, acc =>
    if pat.isPrefixOf (c :: r) then some (acc, (c :: r).drop pat.length)
    else findPatByteRem pat r (acc + u8 c)

/-- Rightmost occurrence of `pat`, as a byte offset (Rust `str::rfind`). -/
def rfindPatByte (pat : List Char) : List Char → Nat → Option Nat
  | [], _ => none
  | c :: r, acc =>
    match rfindPatByte pat r (acc + u8 c) with
    | some b => some b
    | none => if pat.isPrefixOf (c :: r) then some acc else none

/-- Byte offset of the last character satisfying `p`
(Rust `str::rfind(char predicate)`). -/
def rfindCharByte (p : Char → Bool) : List Char → Nat → Option Nat
  | [], _ => none
  | c :: r, acc =>
    match rfindCharByte p r (acc + u8 c) with
    | some b => some b
    | none => if p c then some acc else none

/-- The `while`-loop shared by flush rules 3 and 4: starting from byte
counter `k`, advance while `k` is below the byte length and — as the source
actually tests — the character at CHARACTER index `k` is a newline. -/
def skipNlAux (s : List Char) : Nat → Nat → Nat
  | 0, k => k
  | fuel + 1, k =>
    if k < byteLen s ∧ s[k]? = some '\n' then skipNlAux s fuel (k + 1) else k

/-- Entry point for the newline-skipping loop, with always-sufficient fuel. -/
def skipNl (s : List Char) (k : Nat) : Nat := skipNlAux s (byteLen s + 1) k

/-- Flush rule 1 of `find_flush_boundary`: if a second (non-overlapping)
occurrence of three backticks exists, cut right after it, one further if
the source's character-indexed lookup sees a newline there. -/
def fenceRule (s : List Char) : Option Nat :=
  match findPatByteRem (("```").data) s 0 with
  | none => none
  | some (b0, rem) =>
    match findPatByteRem (("```").data) rem (b0 + 3) with
    | none => none
    | some (b1, _) =>
      if b1 + 3 < byteLen s ∧ s[b1 + 3]? = some '\n' then some (b1 + 4)
      else some (b1 + 3)

/-- Flush rule 2: after the first newline that follows the first pipe, if
something follows that newline and the source's character-indexed lookup
does not see a pipe there. -/
def tableRowRule (s : List Char) : Option Nat :=
  match findPatByteRem (['|']) s 0 with
  | none => none
  | some (tb, rem) =>
    match findPatByteRem (['\n']) rem (tb + 1) with
    | none => none
    | some (nb, _) =>
      if nb + 1 < byteLen s ∧ ¬ (s[nb + 1]? = some '|') then some (nb + 1) else none

/-- Flush rule 3: cut after a double newline, extending over the whole run
of consecutive newlines. -/
def paragraphRule (s : List Char) : Option Nat :=
  match findPatByteRem (['\n', '\n']) s 0 with
  | none => none
  | some (ib, _) => some (skipNl s (ib + 2))

/-- Sentence-terminal punctuation tested by flush rule 4. -/
def isTermPunct (c : Char) : Bool := c = '.' || c = '!' || c = '?' || c = ':'

/-- Flush rule 4, the size-threshold fallback: only once the buffer holds at
least `chunkSize` bytes; searches the first `chunkSize` bytes for, in
order, the last ". ", the last terminal punctuation (accepted only when
followed by whitespace — with the source's `unwrap_or(' ')` default), the
last ", ", the last " - ", the last whitespace strictly past three quarters
of `chunkSize` (skipping trailing newlines), and otherwise cuts exactly at
`chunkSize`. -/
def sizeRule (chunkSize : Nat) (s : List Char) : Option Nat :=
  if chunkSize ≤ byteLen s then
    let w := bytesPrefix chunkSize s
    some (match rfindPatByte ((". ").data) w 0 with
    | some b => b + 2
    | none =>
      match (match rfindCharByte isTermPunct w 0 with
             | some se =>
               if se + 1 < byteLen s ∧ rustWs ((s[se + 1]?).getD ' ') then some (se + 2)
               else none
             | none => none) with
      | some v => v
      | none =>
        match rfindPatByte ((", ").data) w 0 with
        | some b => b + 2
        | none =>
          match rfindPatByte ((" - ").data) w 0 with
          | some b => b + 3
          | none =>
            match (match rfindCharByte rustWs w 0 with
                   | some ls => if chunkSize * 3 / 4 < ls then some (skipNl s (ls + 1)) else none
                   | none => none) with
            | some v => v
            | none => chunkSize)
  else none

/-- `MinimalStreamer::find_flush_boundary`: the four rules in priority
order; a result of 0 means no cut. -/
def find_flush_boundary (chunkSize : Nat) (s : List Char) : Nat :=
  match fenceRule s with
  | some v => v
  | none =>
    match tableRowRule s with
    | some v => v
    | none =>
      match paragraphRule s with
      | some v => v
      | none =>
        match sizeRule chunkSize s with
        | some v => v
        | none => 0

end FlushBoundary

section StreamText

/-- The inner flush loop of `stream_text`: while `find_flush_boundary`
returns a positive cut, drain that prefix from the buffer and hand it to
the renderer.  Fuel-based; one byte of fuel per removed prefix suffices. -/
def drainLoop (chunkSize : Nat) : Nat → List Char → List (List Char) × List Char
  | 0, buf => ([], buf)
  | fuel + 1, buf =>
    let f := find_flush_boundary chunkSize buf
    if 0 < f then
      let r := drainLoop chunkSize fuel (byteDrop f buf)
      (byteTake f buf :: r.1, r.2)
    else ([], buf)

/-- Rust's `std::str::from_utf8(&text_bytes[a..b]).unwrap_or("")` on a slice
of a valid string: the slice is itself valid UTF-8 exactly when both ends
are character boundaries, and then holds the characters encoded between
them; otherwise the `unwrap_or` yields the empty string. -/
def byteSliceStr (s : List Char) (a b : Nat) : List Char :=
  if isBoundary s a && isBoundary s b then (s.take (charsWithin b s)).drop (charsWithin a s)
  else []

/-- The outer loop of `stream_text`: take the next 240-byte slice of the
input, append it to the buffer, sanitize the whole buffer, and run the
flush loop.  Returns the drained segments in order and the final buffer.
Fuel-based; the byte position advances every round, so fuel equal to the
byte length plus one never runs out. -/
def streamLoop (stripBoxes : Bool) (chunkSize : Nat) (text : List Char) :
    Nat → Nat → List Char → List (List Char) × List Char
  | 0, _, buffer => ([], buffer)
  | fuel + 1, pos, buffer =>
    if pos < byteLen text then
      let e := min (pos + 240) (byteLen text)
      let buf2 := sanitizeBuffer stripBoxes (buffer ++ byteSliceStr text pos e)
      let d := drainLoop chunkSize (byteLen buf2 + 1) buf2
      let r := streamLoop stripBoxes chunkSize text fuel e d.2
      (d.1 ++ r.1, r.2)
    else ([], buffer)

/-- `MinimalStreamer::stream_text`: all segments drained during streaming,
paired with the buffer left over at end of input.  (The pacing sleeps have
no effect on the data and are not modelled.) -/
def stream_text (stripBoxes : Bool) (chunkSize : Nat) (text : List Char) :
    List (List Char) × List Char :=
  streamLoop stripBoxes chunkSize text (byteLen text + 1) 0 []

/-- The segments actually handed to `print_styled_markdown`: every drained
prefix, and the final remainder only when it trims to non-empty. -/
def renderedSegments (stripBoxes : Bool) (chunkSize : Nat) (text : List Char) :
    List (List Char) :=
  let st := stream_text stripBoxes chunkSize text
  if rustTrim st.2 ≠ [] then st.1 ++ [st.2] else st.1

/-- The final buffer content that `stream_text` silently discards: the
remainder exactly when it trims to empty (otherwise nothing). -/
def droppedRemainder (stripBoxes : Bool) (chunkSize : Nat) (text : List Char) :
    List Char :=
  let st := stream_text stripBoxes chunkSize text
  if rustTrim st.2 = [] then st.2 else []

end StreamText

section TableRenderer

/-- Decimal digit character. -/
def digitChar (d : Nat) : Char := Char.ofNat (48 + d)

/-- Fuel-based decimal rendering of a natural number (avoids the library's
well-founded `Nat.repr` so that witnesses evaluate by kernel reduction). -/
def natCharsAux : Nat → Nat → List Char → List Char
  | 0, _, acc => acc
  | fuel + 1, n, acc =>
    if n < 10 then digitChar n :: acc
    else natCharsAux fuel (n / 10) (digitChar (n % 10) :: acc)

/-- Decimal representation of a natural number. -/
def natChars (n : Nat) : List Char := natCharsAux (n + 1) n []

/-- Rows parsed by `TableRenderer::render_table`: blank lines are skipped,
each remaining line is split on the pipe character and every cell trimmed. -/
def tableRows (md : List Char) : List (List (List Char)) :=
  (rustLines md).filterMap fun line =>
    if rustTrim line = [] then none else some ((splitOnChar '|' line).map rustTrim)

/-- Fold one row into the running column-width vector: widths are extended
with zeros as needed and each entry becomes the maximum cell length seen. -/
def updWidths : List Nat → List (List Char) → List Nat
  | ws, [] => ws
  | [], cell :: cs => max 0 cell.length :: updWidths [] cs
  | w :: ws, cell :: cs => max w cell.length :: updWidths ws cs

/-- Column widths: maximum rendered cell width per column over all rows. -/
def colWidths (rows : List (List (List Char))) : List Nat := rows.foldl updWidths []

/-- A horizontal border: left corner, a dash run of width + 2 per column
joined by the mid junction, right corner, newline. -/
def borderLine (l m r : Char) (ws : List Nat) : List Char :=
  [l] ++ List.intercalate ([m]) (ws.map fun w => List.replicate (w + 2) '─') ++ [r, '\n']

/-- One cell as printed: ` cell ` left-aligned and padded to the column
width (Rust `{:<width$}`), with a vertical bar before every cell but the
first. -/
def rowCellsAux : List Nat → List (List Char) → Bool → List Char
  | _, [], _ => []
  | ws, cell :: cs, first =>
    (if first then [] else ['│']) ++ [' '] ++ cell ++
      List.replicate (ws.headD 0 - cell.length) ' ' ++ [' '] ++
      rowCellsAux (ws.drop 1) cs false

/-- One full data row line of the rendered table. -/
def rowLine (ws : List Nat) (row : List (List Char)) : List Char :=
  ['│'] ++ rowCellsAux ws row true ++ ['│', '\n']

/-- All rows with their separators: a separator follows the first row and
every row that is not the last. -/
def rowsOutAux (ws : List Nat) (total : Nat) : Nat → List (List (List Char)) → List Char
  | _, [] => []
  | idx, row :: rest =>
    rowLine ws row ++
      (if idx = 0 ∨ idx + 1 < total then borderLine '├' '┼' '┤' ws else []) ++
      rowsOutAux ws total (idx + 1) rest

/-- `TableRenderer::render_table`, collecting the queued terminal prints as
one string. -/
def render_table (md : List Char) : List Char :=
  if rustLines md = [] then []
  else
    let rows := tableRows md
    if rows = [] then []
    else
      borderLine '┌' '┬' '┐' (colWidths rows) ++
        rowsOutAux (colWidths rows) rows.length 0 rows ++
        borderLine '└' '┴' '┘' (colWidths rows)

end TableRenderer

section Theme

/-- The crossterm colors reachable from `Theme::parse_color`. -/
inductive CrossColor where
  | rgb (r g b : Nat)
  | black | red | green | yellow | blue | magenta | cyan | white | darkGrey | grey
deriving DecidableEq

/-- Value of a hexadecimal digit (`u8::from_str_radix` also tolerates a
leading sign; no theme color in the claims exercises that corner). -/
def hexVal (c : Char) : Option Nat :=
  if '0' ≤ c ∧ c ≤ '9' then some (c.toNat - 48)
  else if 'a' ≤ c ∧ c ≤ 'f' then some (c.toNat - 87)
  else if 'A' ≤ c ∧ c ≤ 'F' then some (c.toNat - 55)
  else none

/-- Two hexadecimal digits as one byte value. -/
def hexPair (a b : Char) : Option Nat :=
  match hexVal a, hexVal b with
  | some x, some y => some (16 * x + y)
  | _, _ => none

/-- ASCII lowercasing (the color names matched below are all ASCII, so this
agrees with Rust's `str::to_lowercase` on every input that can match). -/
def asciiLower (c : Char) : Char :=
  if 'A' ≤ c ∧ c ≤ 'Z' then Char.ofNat (c.toNat + 32) else c

/-- `Theme::parse_color`: a 7-byte `#RRGGBB` hex string parses to an RGB
color, otherwise a fixed set of names (case-insensitively) is tried, and
anything unrecognized falls back to white. -/
def parse_color (s : List Char) : CrossColor :=
  let hex? : Option CrossColor :=
    match s with
    | '#' :: rest =>
      if byteLen s = 7 then
        match rest with
        | [a, b, c, d, e, f] =>
          match hexPair a b, hexPair c d, hexPair e f with
          | some r, some g, some bl => some (.rgb r g bl)
          | _, _, _ => none
        | _ => none
      else none
    | _ => none
  match hex? with
  | some col => col
  | none =>
    let l := s.map asciiLower
    if l = ("black").data then .black
    else if l = ("red").data then .red
    else if l = ("green").data then .green
    else if l = ("yellow").data then .yellow
    else if l = ("blue").data then .blue
    else if l = ("magenta").data then .magenta
    else if l = ("cyan").data then .cyan
    else if l = ("white").data then .white
    else if l = ("dark_grey").data ∨ l = ("dark_gray").data then .darkGrey
    else if l = ("grey").data ∨ l = ("gray").data then .grey
    else .white

/-- `HeadingColors`: one color for all levels, or one per level. -/
inductive HeadingColors where
  | single (c : List Char)
  | multiple (cs : List (List Char))

/-- `Theme::get_heading_color` (only the `heading` field matters): the
entry at `level.saturating_sub(1)` when present, else the last entry, else
the parsed `#ffffff` fallback; a single color serves every level. -/
def get_heading_color (h : HeadingColors) (level : Nat) : CrossColor :=
  match h with
  | .single c => parse_color c
  | .multiple colors =>
    match colors[level - 1]? with
    | some c => parse_color c
    | none =>
      match colors.getLast? with
      | some last => parse_color last
      | none => parse_color (("#ffffff").data)

end Theme

section Renderer

/-- The pulldown-cmark events that `print_styled_markdown` matches on
(every event kind it ignores is collapsed into `otherEvent`). -/
inductive MdEvent where
  | startParagraph | endParagraph
  | startHeading (level : Nat) | endHeading
  | startBlockQuote | endBlockQuote
  | startCodeBlock (fenced : Bool) (lang : List Char) | endCodeBlock
  | startList (ordStart : Option Nat) | endList
  | startItem | endItem
  | startTable | endTable
  | startTableHead | endTableHead
  | startTableRow | endTableRow
  | startTableCell
  | startEmphasis | endEmphasis
  | startStrong | endStrong
  | text (t : List Char)
  | softBreak | hardBreak | horizRule
  | otherEvent
deriving DecidableEq

/-- Observable renderer actions: styled-engine prints, raw terminal prints,
style changes (recorded by the theme role they look up), table rendering,
and the terminal-width rule line. -/
inductive OutAct where
  | madPrint (t : List Char)
  | termPrint (t : List Char)
  | setFg (role : List Char)
  | setAttr (a : List Char)
  | resetColor
  | tableOut (t : List Char)
  | ruleOut
deriving DecidableEq

/-- The mutable locals of `print_styled_markdown`, together with the
ordered trace of emitted actions. -/
structure RenderState where
  listDepth : Nat := 0
  tableBuffer : List Char := []
  inTable : Bool := false
  tableCellCount : Nat := 0
  headerBuffer : List Char := []
  inHeader : Bool := false
  listBuffer : List Char := []
  inList : Bool := false
  listIndentLevel : Nat := 0
  listTypes : List (Option Nat) := []
  itemNumbers : List Nat := []
  codeBlockBuffer : List Char := []
  inCodeBlock : Bool := false
  inParagraph : Bool := false
  output : List OutAct := []
deriving DecidableEq

/-- Repeatedly strip a trailing occurrence of `pat`
(Rust `str::trim_end_matches`). -/
def trimEndMatchesAux (pat : List Char) : Nat → List Char → List Char
  | 0, s => s
  | fuel + 1, s =>
    if pat ≠ [] ∧ pat.isSuffixOf s then trimEndMatchesAux pat fuel (s.take (s.length - pat.length))
    else s

/-- Rust `str::trim_end_matches`. -/
def trimEndMatches (pat : List Char) (s : List Char) : List Char :=
  trimEndMatchesAux pat (s.length + 1) s

/-- Flush a pending non-empty heading buffer through the styled engine. -/
def flushHeader (s : RenderState) : RenderState :=
  if s.inHeader ∧ s.headerBuffer ≠ [] then
    { s with output := s.output ++ [.madPrint s.headerBuffer], headerBuffer := [],
             inHeader := false }
  else s

/-- Flush a pending non-empty list buffer through the styled engine. -/
def flushList (s : RenderState) : RenderState :=
  if s.inList ∧ s.listBuffer ≠ [] then
    { s with output := s.output ++ [.madPrint s.listBuffer], listBuffer := [], inList := false }
  else s

/-- The event handling while a table is open (`if in_table` branch): only
table events and text are consumed, everything else is ignored. -/
def stepTable (s : RenderState) (e : MdEvent) : RenderState :=
  match e with
  | .endTable =>
    let md := trimEndMatches (("| ").data) (trimEndMatches ((" | ").data) s.tableBuffer)
    { s with inTable := false, tableBuffer := [],
             output := s.output ++ (if md ≠ [] then [.tableOut md] else []) }
  | .startTableHead => { s with tableCellCount := 0 }
  | .startTableRow => { s with tableCellCount := 0 }
  | .endTableHead =>
    if 0 < s.tableCellCount then { s with tableBuffer := s.tableBuffer ++ ['\n'] } else s
  | .endTableRow =>
    if 0 < s.tableCellCount then { s with tableBuffer := s.tableBuffer ++ ['\n'] } else s
  | .startTableCell =>
    { s with
      tableBuffer := s.tableBuffer ++ (if 0 < s.tableCellCount then (" | ").data else []),
      tableCellCount := s.tableCellCount + 1 }
  | .text t => { s with tableBuffer := s.tableBuffer ++ t }
  | _ => s

/-- The event handling outside a table (the main `match` of
`print_styled_markdown`). -/
def stepMain (s : RenderState) (e : MdEvent) : RenderState :=
  match e with
  | .startTable =>
    let s2 := flushList (flushHeader s)
    { s2 with inTable := true, tableBuffer := [], tableCellCount := 0 }
  | .startHeading level =>
    let s1 := flushList s
    { s1 with inHeader := true, headerBuffer := List.replicate level '#' ++ [' '] }
  | .endHeading =>
    if s.inHeader then
      { s with output := s.output ++ [.madPrint s.headerBuffer], headerBuffer := [],
               inHeader := false }
    else s
  | .startList t =>
    let s1 :=
      if ¬ s.inList then
        let sh := flushHeader s
        { sh with inList := true, listBuffer := [], listDepth := 0, listTypes := [],
                  itemNumbers := [] }
      else s
    let s2 := { s1 with listDepth := s1.listDepth + 1, listTypes := s1.listTypes ++ [t],
                        itemNumbers := s1.itemNumbers ++ [0] }
    let s3 := if 1 < s2.listDepth then { s2 with listBuffer := s2.listBuffer ++ ['\n'] } else s2
    { s3 with listIndentLevel := s3.listDepth - 1 }
  | .endList =>
    -- `list_depth -= 1` on a usize: an unmatched end would underflow in
    -- Rust; Nat subtraction models the reachable (well-nested) executions.
    let s1 := { s with listDepth := s.listDepth - 1, listTypes := s.listTypes.dropLast,
                       itemNumbers := s.itemNumbers.dropLast }
    if s1.listDepth = 0 ∧ s1.inList then
      { s1 with output := s1.output ++ [.madPrint s1.listBuffer], listBuffer := [],
                inList := false }
    else if 0 < s1.listDepth then { s1 with listIndentLevel := s1.listDepth - 1 }
    else s1
  | .startItem =>
    if s.inList then
      let indent := List.replicate (min (2 * s.listIndentLevel) 3) ' '
      let level := s.listDepth - 1
      let itemNum := s.itemNumbers.getD level 0
      let s1 := { s with itemNumbers := s.itemNumbers.set level (itemNum + 1) }
      match s.listTypes.getD level none with
      | some start =>
        { s1 with listBuffer := s1.listBuffer ++ indent ++ natChars (start + itemNum) ++
            (". ").data }
      | none => { s1 with listBuffer := s1.listBuffer ++ indent ++ ("- ").data }
    else s
  | .endItem => if s.inList then { s with listBuffer := s.listBuffer ++ ['\n'] } else s
  | .startCodeBlock fenced lang =>
    let s2 := flushList (flushHeader s)
    { s2 with inCodeBlock := true,
              codeBlockBuffer := ("```").data ++ (if fenced then lang else []) ++ ['\n'] }
  | .endCodeBlock =>
    { s with output := s.output ++ [.madPrint (s.codeBlockBuffer ++ ("\n```").data)],
             codeBlockBuffer := [], inCodeBlock := false }
  | .startEmphasis =>
    if s.inHeader then { s with headerBuffer := s.headerBuffer ++ ['*'] }
    else if s.inList then { s with listBuffer := s.listBuffer ++ ['*'] }
    else { s with output := s.output ++ [.setAttr (("italic").data), .setFg (("italic").data)] }
  | .endEmphasis =>
    if s.inHeader then { s with headerBuffer := s.headerBuffer ++ ['*'] }
    else if s.inList then { s with listBuffer := s.listBuffer ++ ['*'] }
    else { s with output := s.output ++ [.resetColor] }
  | .startStrong =>
    if s.inHeader then { s with headerBuffer := s.headerBuffer ++ ('*' :: ['*']) }
    else if s.inList then { s with listBuffer := s.listBuffer ++ ('*' :: ['*']) }
    else { s with output := s.output ++ [.setAttr (("bold").data), .setFg (("bold").data)] }
  | .endStrong =>
    if s.inHeader then { s with headerBuffer := s.headerBuffer ++ ('*' :: ['*']) }
    else if s.inList then { s with listBuffer := s.listBuffer ++ ('*' :: ['*']) }
    else { s with output := s.output ++ [.resetColor] }
  | .text t =>
    if s.inHeader then { s with headerBuffer := s.headerBuffer ++ t }
    else if s.inList then { s with listBuffer := s.listBuffer ++ t }
    else if s.inCodeBlock then { s with codeBlockBuffer := s.codeBlockBuffer ++ t }
    else { s with output := s.output ++ [.termPrint t] }
  | .softBreak =>
    if s.inList then { s with listBuffer := s.listBuffer ++ ['\n'] }
    else { s with output := s.output ++ [.termPrint (['\n'])] }
  | .hardBreak =>
    if s.inList then { s with listBuffer := s.listBuffer ++ ('\n' :: ['\n']) }
    else { s with output := s.output ++ [.termPrint ('\n' :: ['\n'])] }
  | .horizRule =>
    let s2 := flushList (flushHeader s)
    { s2 with output := s2.output ++ [.ruleOut] }
  | .startBlockQuote =>
    if s.inList then { s with listBuffer := s.listBuffer ++ ("> ").data }
    else { s with output := s.output ++ [.setFg (("italic").data), .termPrint (("│ ").data)] }
  | .endBlockQuote =>
    if s.inList then { s with listBuffer := s.listBuffer ++ ['\n'] }
    else { s with output := s.output ++ [.resetColor, .termPrint (['\n'])] }
  | .startParagraph => { s with inParagraph := true }
  | .endParagraph =>
    let s1 :=
      if s.inList then s
      else if s.inParagraph then { s with output := s.output ++ [.termPrint ('\n' :: ['\n'])] }
      else s
    { s1 with inParagraph := false }
  | _ => s

/-- One event step of `print_styled_markdown`. -/
def step (s : RenderState) (e : MdEvent) : RenderState :=
  if s.inTable then stepTable s e else stepMain s e

/-- Process a list of events. -/
def runRender (s : RenderState) : List MdEvent → RenderState
  | [] => s
  | e :: r => runRender (step s e) r

/-- The renderer's starting state for one segment. -/
def initRender : RenderState := {}

/-- At most one of the table, heading and code-block accumulators is open. -/
def exclusiveAccum (s : RenderState) : Prop :=
  (s.inTable = true → s.inHeader = false ∧ s.inCodeBlock = false) ∧
    (s.inHeader = true → s.inCodeBlock = false)

/-- The full inductive invariant: exclusivity, plus the fact that an open
heading always holds at least its `#` prefix. -/
def renderInv (s : RenderState) : Prop :=
  exclusiveAccum s ∧ (s.inHeader = true → s.headerBuffer ≠ [])

instance (s : RenderState) : Decidable (exclusiveAccum s) := by
  unfold exclusiveAccum; infer_instance

instance (s : RenderState) : Decidable (renderInv s) := by
  unfold renderInv; infer_instance

/-- Which events the Markdown parser can emit while a code block is open
(`flag = true`): pulldown-cmark only produces text and the closing end
event there. -/
def evAllowed (flag : Bool) (e : MdEvent) : Bool :=
  if flag then
    match e with
    | .text _ => true
    | .endCodeBlock => true
    | _ => false
  else true

/-- Tracks whether the event stream position is inside a code block. -/
def nextFlag (flag : Bool) (e : MdEvent) : Bool :=
  if flag then
    match e with
    | .endCodeBlock => false
    | _ => true
  else
    match e with
    | .startCodeBlock _ _ => true
    | _ => false

/-- Well-formedness of a parser event stream with respect to code blocks,
starting outside/inside one according to `flag`. -/
def okEvents : Bool → List MdEvent → Bool
  | _, [] => true
  | flag, e :: r => evAllowed flag e && okEvents (nextFlag flag e) r

end Renderer

section Predicates

/-- Every character of `s` is ASCII, so that byte and character positions
coincide throughout the buffer. -/
def allAscii (s : List Char) : Prop := ∀ c ∈ s, c.toNat < 128

instance (s : List Char) : Decidable (allAscii s) := by
  unfold allAscii; infer_instance

/-- The string contains no escape character, so the ANSI-stripping regex
cannot match anywhere in it. -/
def noEsc (s : List Char) : Prop := '\x1b' ∉ s

instance (s : List Char) : Decidable (noEsc s) := by
  unfold noEsc; infer_instance

end Predicates

section BasicLemmas

theorem ansiTail_eq_none {c : Char} {r : List Char} (h : c ≠ '\x1b') :
    ansiTail (c :: r) = none := by
  cases r with
  | nil => rfl
  | cons c2 rest =>
    simp only [ansiTail]
    rw [if_neg]
    intro hc
    exact h hc.1

theorem stripAnsiAux_of_noEsc : ∀ (fuel : Nat) (s : List Char), noEsc s → stripAnsiAux fuel s = s
  | 0, s, _ => rfl
  | _ + 1, [], _ => rfl
  | fuel + 1, c :: r, h => by
    have hc : c ≠ '\x1b' := fun hc => h (hc ▸ List.mem_cons_self c r)
    have hr : noEsc r := fun hm => h (List.mem_cons_of_mem c hm)
    unfold stripAnsiAux
    rw [ansiTail_eq_none hc, stripAnsiAux_of_noEsc fuel r hr]

theorem strip_ansi_of_noEsc {s : List Char} (h : noEsc s) : strip_ansi s = s :=
  stripAnsiAux_of_noEsc s.length s h

theorem u8_of_ascii {c : Char} (h : c.toNat < 128) : u8 c = 1 := by
  have hv : c.val ≤ UInt32.ofNatCore 0x7F (by decide) := by
    rw [UInt32.le_def, BitVec.le_def]
    have h2 : c.val.toBitVec.toNat = c.toNat := rfl
    have h3 : (UInt32.ofNatCore 0x7F (by decide)).toBitVec.toNat = 127 := rfl
    omega
  unfold u8 Char.utf8Size
  rw [if_pos hv]

theorem byteLen_of_ascii : ∀ {s : List Char}, allAscii s → byteLen s = s.length
  | [], _ => rfl
  | c :: r, h => by
    have hc : c.toNat < 128 := h c (List.mem_cons_self c r)
    have hr : allAscii r := fun x hx => h x (List.mem_cons_of_mem c hx)
    rw [byteLen, u8_of_ascii hc, byteLen_of_ascii hr, List.length_cons]
    omega

theorem charsWithin_of_ascii : ∀ {s : List Char}, allAscii s → ∀ b, charsWithin b s = min b s.length
  | [], _, b => by simp [charsWithin]
  | c :: r, h, b => by
    have hc : c.toNat < 128 := h c (List.mem_cons_self c r)
    have hr : allAscii r := fun x hx => h x (List.mem_cons_of_mem c hx)
    rw [charsWithin, u8_of_ascii hc]
    by_cases hb : 1 ≤ b
    · rw [if_pos hb, charsWithin_of_ascii hr]
      simp only [List.length_cons]
      omega
    · rw [if_neg hb]
      simp only [List.length_cons]
      omega

theorem isBoundary_of_ascii : ∀ {s : List Char}, allAscii s → ∀ p,
    isBoundary s p = decide (p ≤ s.length)
  | [], _, 0 => rfl
  | [], _, _ + 1 => by simp [isBoundary, Nat.not_succ_le_zero]
  | c :: r, h, 0 => by simp [isBoundary]
  | c :: r, h, p + 1 => by
    have hc : c.toNat < 128 := h c (List.mem_cons_self c r)
    have hr : allAscii r := fun x hx => h x (List.mem_cons_of_mem c hx)
    rw [isBoundary, u8_of_ascii hc, if_pos (by omega)]
    rw [isBoundary_of_ascii hr]
    simp only [List.length_cons]
    rw [decide_eq_decide]
    omega

theorem allAscii_append {a b : List Char} (ha : allAscii a) (hb : allAscii b) :
    allAscii (a ++ b) := fun c hc => (List.mem_append.mp hc).elim (ha c) (hb c)

theorem allAscii_sub {a b : List Char} (h : allAscii b) (hs : ∀ c ∈ a, c ∈ b) :
    allAscii a := fun c hc => h c (hs c hc)

theorem noEsc_append {a b : List Char} (ha : noEsc a) (hb : noEsc b) : noEsc (a ++ b) := by
  intro h
  exact (List.mem_append.mp h).elim ha hb

theorem noEsc_sub {a b : List Char} (h : noEsc b) (hs : ∀ c ∈ a, c ∈ b) : noEsc a :=
  fun hm => h (hs _ hm)

theorem rustTrim_eq_nil_all_ws {l : List Char} (h : rustTrim l = []) : ∀ c ∈ l, rustWs c = true := by
  unfold rustTrim at h
  rw [List.reverse_eq_nil_iff] at h
  have h2 : ∀ c ∈ (l.dropWhile rustWs).reverse, rustWs c = true :=
    List.dropWhile_eq_nil_iff.mp h
  have h3 : ∀ c ∈ l.dropWhile rustWs, rustWs c = true := fun c hc =>
    h2 c (List.mem_reverse.mpr hc)
  intro c hc
  rw [← List.takeWhile_append_dropWhile (p := rustWs) (l := l)] at hc
  rcases List.mem_append.mp hc with h4 | h4
  · exact List.mem_takeWhile_imp h4
  · exact h3 c h4

end BasicLemmas

section ClaimC2C3

/-- C2: the claim prescribes the cut immediately after the second
triple-backtick occurrence (one further only if a newline follows it in
the buffer).  In `"é``````a\n"` the second fence occupies bytes 5 to 7, the
byte after it (byte 8) holds `'a'`, not a newline, so the claim prescribes
a cut at 8; the code instead consults the character at character index 8
(the final newline) and returns 9.  This contradicts the code's own
comment ("include following newline if present"). -/
theorem fence_rule_newline_check_uses_char_index :
    find_flush_boundary 150 (("é``````a\n").data) = 9 ∧
    fenceRule (("é``````a\n").data) = some 9 ∧
    charAtByte (("é``````a\n").data) 8 = some 'a' ∧
    ('a' : Char) ≠ '\n' := by
  refine ⟨by decide, by decide, by decide, by decide⟩

/-- C3: on `"é``````é\n"` the boundary search returns byte index 9, which
falls inside the two-byte encoding of the final `'é'` (bytes 8 and 9), so
`buffer.drain(..9)` in `stream_text` panics; the spec's invariant that the
returned index is always a character boundary is violated.  The root cause
is the same character-index lookup `buffer.chars().nth(flush_at)` applied
to a byte index. -/
theorem flush_boundary_can_split_multibyte_char :
    find_flush_boundary 150 (("é``````é\n").data) = 9 ∧
    isBoundary (("é``````é\n").data) 9 = false ∧
    9 < byteLen (("é``````é\n").data) := by
  refine ⟨by decide, by decide, by decide⟩

end ClaimC2C3

section ClaimC8

/-- C8: `render_table` on the flattened text `"a | b\n1 | 2"` computes
column widths 1 and 1 and emits exactly a top border, the header row, one
separator, the data row (with no separator after it, being the last row),
and a bottom border, drawn with the box-drawing characters. -/
theorem render_table_two_by_two :
    render_table (("a | b\n1 | 2").data) =
      ("┌───┬───┐\n│ a │ b │\n├───┼───┤\n│ 1 │ 2 │\n└───┴───┘\n").data ∧
    colWidths (tableRows (("a | b\n1 | 2").data)) = [1, 1] ∧
    (tableRows (("a | b\n1 | 2").data)).map List.length = [2, 2] := by
  refine ⟨by decide, by decide, by decide⟩

end ClaimC8

section ClaimC9

/-- C9: with an explicit per-level color list, `get_heading_color` returns
the entry at index `level - 1` when it exists, otherwise the last entry of
the list, and the parsed `#ffffff` (white, RGB 255 255 255) for an empty
list; a single-color theme returns its one color at every level. -/
theorem heading_color_lookup :
    (∀ (colors : List (List Char)) (level : Nat) (c : List Char),
        colors[level - 1]? = some c →
        get_heading_color (.multiple colors) level = parse_color c) ∧
    (∀ (colors : List (List Char)) (level : Nat) (c : List Char),
        colors[level - 1]? = none → colors.getLast? = some c →
        get_heading_color (.multiple colors) level = parse_color c) ∧
    (∀ level : Nat, get_heading_color (.multiple []) level = .rgb 255 255 255) ∧
    (∀ (c : List Char) (level : Nat), get_heading_color (.single c) level = parse_color c) := by
  refine ⟨?_, ?_, ?_, ?_⟩
  · intro colors level c h
    simp [get_heading_color, h]
  · intro colors level c h1 h2
    simp [get_heading_color, h1, h2]
  · intro level
    have h0 : (([] : List (List Char)))[level - 1]? = none := by simp
    simp only [get_heading_color, h0, List.getLast?_nil]
    decide
  · intro c level
    rfl

/-- Witness for C9: a three-entry list queried at level 7 yields its third
entry, parsed (here the named color blue). -/
theorem heading_color_lookup_witness :
    ([("red").data, ("green").data, ("blue").data][(7 : Nat) - 1]? = none) ∧
    ([("red").data, ("green").data, ("blue").data].getLast? = some (("blue").data)) ∧
    get_heading_color (.multiple [("red").data, ("green").data, ("blue").data]) 7 =
      parse_color (("blue").data) ∧
    parse_color (("blue").data) = .blue :=
  ⟨by decide, by decide,
    heading_color_lookup.2.1 [("red").data, ("green").data, ("blue").data] 7 (("blue").data)
      (by decide) (by decide),
    by decide⟩

end ClaimC9

section ClaimC10

/-- C10: when the buffer contains a pipe and the first newline at or after
that pipe is the buffer's final character, the table-row rule makes no cut
(its guard requires a byte after the newline), so the boundary decision
falls through to the remaining rules. -/
theorem table_row_rule_defers_complete_table
    (chunkSize : Nat) (s : List Char) (tb : Nat) (rem : List Char) (nb : Nat) (rem2 : List Char)
    (h1 : findPatByteRem (['|']) s 0 = some (tb, rem))
    (h2 : findPatByteRem (['\n']) rem (tb + 1) = some (nb, rem2))
    (h3 : nb + 1 = byteLen s) :
    tableRowRule s = none ∧
      find_flush_boundary chunkSize s =
        (match fenceRule s with
         | some v => v
         | none =>
           match paragraphRule s with
           | some v => v
           | none =>
             match sizeRule chunkSize s with
             | some v => v
             | none => 0) := by
  have hr : tableRowRule s = none := by
    simp only [tableRowRule, h1, h2]
    rw [if_neg]
    intro hcon
    exact absurd hcon.1 (by omega)
  refine ⟨hr, ?_⟩
  unfold find_flush_boundary
  rw [hr]

/-- Witness for C10: the single-row table buffer `"| a |\n"` — pipe at byte
0, first following newline at byte 5, the last byte — is not cut by the
table-row rule, and the whole boundary search returns 0 (no cut), leaving
the table buffered. -/
theorem table_row_rule_defers_complete_table_witness :
    findPatByteRem (['|']) (("| a |\n").data) 0 = some (0, (" a |\n").data) ∧
    findPatByteRem (['\n']) ((" a |\n").data) 1 = some (5, []) ∧
    5 + 1 = byteLen (("| a |\n").data) ∧
    tableRowRule (("| a |\n").data) = none ∧
    find_flush_boundary 150 (("| a |\n").data) = 0 :=
  ⟨by decide, by decide, by decide,
    (table_row_rule_defers_complete_table 150 (("| a |\n").data) 0 ((" a |\n").data) 5 []
      (by decide) (by decide) (by decide)).1,
    by decide⟩

end ClaimC10

section ClaimC6

/-- C6 counterexample: the three lines `"+-+"`, `"||"`, `"+-+"` form a box
pattern whose middle line has empty inner text; the code drops the triple
entirely instead of producing the blank line, `### ` heading, blank line
that the claim prescribes for every pattern. -/
theorem box_with_empty_inner_is_dropped :
    boxPat (("+-+").data) (("||").data) (("+-+").data) = true ∧
    innerText (("||").data) = [] ∧
    sanitize_boxes_lines (rustLines (("+-+\n||\n+-+").data)) = [] ∧
    sanitize_boxes (("+-+\n||\n+-+").data) = [] ∧
    ([] : List (List Char)) ≠ [[], ("### ").data, []] := by
  refine ⟨by decide, by decide, by decide, by decide, by decide⟩

/-- C6 as amended: the example box sanitizes to the three lines `""`,
`"### hi"`, `""`, and in general a matching three-line pattern — including
one that ends the input — is replaced by blank line, level-3 heading with
the middle line's inner text, blank line, provided that inner text is
non-empty (an empty inner text drops the triple instead). -/
theorem box_pattern_replacement :
    (sanitize_boxes_lines (rustLines (("+----+\n| hi |\n+----+").data)) =
      [[], ("### hi").data, []]) ∧
    (sanitize_boxes (("+----+\n| hi |\n+----+").data) = ("\n### hi\n").data) ∧
    (∀ (a b c : List Char) (rest : List (List Char)),
      boxPat a b c = true → innerText b ≠ [] →
      sanitize_boxes_lines (a :: b :: c :: rest) =
        [[], ("### ").data ++ innerText b, []] ++ sanitize_boxes_lines rest) := by
  refine ⟨by decide, by decide, ?_⟩
  intro a b c rest h1 h2
  rw [sanitize_boxes_lines, if_pos h1, if_pos h2]

/-- Witness for C6: the general replacement applied to a concrete box that
ends the line list (empty tail). -/
theorem box_pattern_replacement_witness :
    boxPat (("+--+").data) (("| x |").data) (("+--+").data) = true ∧
    innerText (("| x |").data) ≠ [] ∧
    sanitize_boxes_lines [("+--+").data, ("| x |").data, ("+--+").data] =
      [[], ("### ").data ++ innerText (("| x |").data), []] ++ sanitize_boxes_lines [] :=
  ⟨by decide, by decide,
    box_pattern_replacement.2.2 (("+--+").data) (("| x |").data) (("+--+").data) []
      (by decide) (by decide)⟩

end ClaimC6

section ClaimC5

/-- Every line produced by the box-sanitizing line loop is either a `### `
replacement heading or contains none of the characters of the strip set. -/
theorem mem_sanitize_boxes_lines :
    ∀ (ls : List (List Char)) (l : List Char), l ∈ sanitize_boxes_lines ls →
      (("### ").data).isPrefixOf l = true ∨ ∀ c ∈ l, boxStripSet.contains c = false := by
  intro ls
  induction ls using sanitize_boxes_lines.induct with
  | case1 a b c rest hpat ih =>
    intro l hl
    rw [sanitize_boxes_lines, if_pos hpat] at hl
    rcases List.mem_append.mp hl with hin | hin
    · by_cases hne : innerText b ≠ []
      · rw [if_pos hne] at hin
        simp only [List.mem_cons, List.not_mem_nil, or_false] at hin
        rcases hin with rfl | rfl | rfl
        · right; intro c hc; cases hc
        · left
          rw [ List.isPrefixOf_iff_prefix]
          exact List.prefix_append _ _
        · right; intro c hc; cases hc
      · rw [if_neg hne] at hin
        cases hin
    · exact ih l hin
  | case2 a b c rest hpat ih =>
    intro l hl
    rw [sanitize_boxes_lines, if_neg hpat] at hl
    rcases List.mem_cons.mp hl with h | h
    · subst h
      right
      intro x hx
      have := List.of_mem_filter hx
      simpa using this
    · exact ih l h
  | case3 a rest hshort ih =>
    intro l hl
    have hl' : l ∈ cleanLine a :: sanitize_boxes_lines rest := by
      cases rest with
      | nil => exact hl
      | cons x xs =>
        cases xs with
        | nil => exact hl
        | cons y ys => exact absurd rfl (hshort x y ys)
    rcases List.mem_cons.mp hl' with h | h
    · subst h
      right
      intro x hx
      have := List.of_mem_filter hx
      simpa using this
    · exact ih l h
  | case4 =>
    intro l hl
    cases hl

/-- C5 counterexample: with box stripping disabled the sanitization applied
by `stream_text` is only the ANSI strip, so the Unicode box characters of
`"┌─┐"` pass through untouched — they are not "always stripped". -/
theorem box_chars_survive_when_stripping_disabled :
    sanitizeBuffer false (("┌─┐").data) = ("┌─┐").data ∧
    '┌' ∈ sanitizeBuffer false (("┌─┐").data) ∧
    boxStripSet.contains '┌' = true := by
  refine ⟨by decide, by decide, by decide⟩

/-- C5 as amended: stray box-drawing characters are stripped only when box
stripping is enabled — then every output line of the box sanitizer either
is a `### ` replacement heading or is free of the strip set, whose
characters do not include the ASCII `+`, `-`, `|` (lines without strip-set
characters pass the clean-line filter unchanged); with box stripping
disabled the buffer is not box-sanitized at all (only ANSI-stripped, the
identity on escape-free text). -/
theorem box_stripping_only_when_enabled :
    (∀ (s l : List Char), l ∈ sanitize_boxes_lines (rustLines s) →
      (("### ").data).isPrefixOf l = true ∨ ∀ c ∈ l, boxStripSet.contains c = false) ∧
    (∀ l : List Char, (∀ c ∈ l, boxStripSet.contains c = false) → cleanLine l = l) ∧
    (boxStripSet.contains '+' = false ∧ boxStripSet.contains '-' = false ∧
      boxStripSet.contains '|' = false) ∧
    (∀ s : List Char, noEsc s → sanitizeBuffer false s = s) := by
  refine ⟨?_, ?_, ⟨by decide, by decide, by decide⟩, ?_⟩
  · intro s l hl
    exact mem_sanitize_boxes_lines (rustLines s) l hl
  · intro l h
    apply List.filter_eq_self.mpr
    intro c hc
    simpa using h c hc
  · intro s h
    show strip_ansi s = s
    exact strip_ansi_of_noEsc h

/-- Witness for C5: the first conjunct applied to a concrete buffer whose
lone line carries a stray box character, and the last conjunct applied to
an escape-free buffer. -/
theorem box_stripping_only_when_enabled_witness :
    (("ab").data ∈ sanitize_boxes_lines (rustLines (("a┌b").data)) ∧
      ((("### ").data).isPrefixOf (("ab").data) = true ∨
        ∀ c ∈ (("ab").data), boxStripSet.contains c = false)) ∧
    (noEsc (("+-|").data) ∧ sanitizeBuffer false (("+-|").data) = ("+-|").data) :=
  ⟨⟨by decide, box_stripping_only_when_enabled.1 (("a┌b").data) (("ab").data) (by decide)⟩,
    ⟨by decide, box_stripping_only_when_enabled.2.2.2 (("+-|").data) (by decide)⟩⟩

end ClaimC5

section ClaimC4

/-- Character index of the rightmost position where `pat` starts. -/
def rlastMatchIdx (pat : List Char) : List Char → Option Nat
  | [] => none
  | c :: r =>
    match rlastMatchIdx pat r with
    | some i => some (i + 1)
    | none => if pat.isPrefixOf (c :: r) then some 0 else none

/-- Character index of the last character satisfying `p`. -/
def rfindIdx (p : Char → Bool) : List Char → Option Nat
  | [] => none
  | c :: r =>
    match rfindIdx p r with
    | some i => some (i + 1)
    | none => if p c then some 0 else none

/-- Character-level newline skipping, as the specification reads at
character granularity. -/
def skipNlIdxAux (s : List Char) : Nat → Nat → Nat
  | 0, k => k
  | fuel + 1, k =>
    if k < s.length ∧ s[k]? = some '\n' then skipNlIdxAux s fuel (k + 1) else k

/-- Entry point for the character-level newline skip. -/
def skipNlIdx (s : List Char) (k : Nat) : Nat := skipNlIdxAux s (s.length + 1) k

/-- The size-threshold rule as the specification's sentence describes it,
stated at character granularity (the claim's positions coincide with byte
positions on ASCII buffers): search the first chunk-size characters, in
order, for the last ". ", the last terminal punctuation followed by
whitespace, the last ", ", the last " - ", and then a whitespace boundary
subject to the 75% threshold; `strict` false is the claim's "at or after
75% of the chunk-size" (4·i ≥ 3·chunk-size), `strict` true the
strictly-greater integer-division threshold.  No match cuts exactly at
chunk-size. -/
def sizeRuleSpec (strict : Bool) (chunkSize : Nat) (s : List Char) : Option Nat :=
  if chunkSize ≤ s.length then
    let w := s.take chunkSize
    some (match rlastMatchIdx ((". ").data) w with
    | some i => i + 2
    | none =>
      match (match rfindIdx isTermPunct w with
             | some i =>
               if i + 1 < s.length ∧ rustWs ((s[i + 1]?).getD ' ') then some (i + 2) else none
             | none => none) with
      | some v => v
      | none =>
        match rlastMatchIdx ((", ").data) w with
        | some i => i + 2
        | none =>
          match rlastMatchIdx ((" - ").data) w with
          | some i => i + 3
          | none =>
            match (match rfindIdx rustWs w with
                   | some i =>
                     if (if strict then chunkSize * 3 / 4 < i else 3 * chunkSize ≤ 4 * i) then
                       some (skipNlIdx s (i + 1))
                     else none
                   | none => none) with
            | some v => v
            | none => chunkSize)
  else none

/-- C4 counterexample: with chunk-size 8 and buffer `"abcdef gXYZ"` (no
fence, table or paragraph cut, no punctuation), the only whitespace in the
8-byte window sits at index 6, exactly 75% of 8 — the claim's "at or after
75%" rule would cut just past it at 7, but the code requires the position
to strictly exceed `8 * 3 / 4 = 6` and therefore hard-cuts at chunk-size
8. -/
theorem size_rule_threshold_mismatch :
    fenceRule (("abcdef gXYZ").data) = none ∧
    tableRowRule (("abcdef gXYZ").data) = none ∧
    paragraphRule (("abcdef gXYZ").data) = none ∧
    8 ≤ byteLen (("abcdef gXYZ").data) ∧
    sizeRuleSpec false 8 (("abcdef gXYZ").data) = some 7 ∧
    find_flush_boundary 8 (("abcdef gXYZ").data) = 8 := by
  refine ⟨by decide, by decide, by decide, by decide, by decide, by decide⟩

theorem rlastMatchIdx_of_ascii (pat : List Char) :
    ∀ (w : List Char), allAscii w → ∀ acc,
      rfindPatByte pat w acc = (rlastMatchIdx pat w).map (· + acc)
  | [], _, acc => rfl
  | c :: r, h, acc => by
    have hc : c.toNat < 128 := h c (List.mem_cons_self c r)
    have hr : allAscii r := fun x hx => h x (List.mem_cons_of_mem c hx)
    rw [rfindPatByte, rlastMatchIdx, u8_of_ascii hc,
      rlastMatchIdx_of_ascii pat r hr (acc + 1)]
    cases rlastMatchIdx pat r with
    | none =>
      show (if pat.isPrefixOf (c :: r) then some acc else none) =
        (if pat.isPrefixOf (c :: r) then some 0 else none).map (· + acc)
      split <;> simp
    | some i =>
      show some (i + (acc + 1)) = some (i + 1 + acc)
      congr 1
      omega

theorem rfindIdx_of_ascii (p : Char → Bool) :
    ∀ (w : List Char), allAscii w → ∀ acc,
      rfindCharByte p w acc = (rfindIdx p w).map (· + acc)
  | [], _, acc => rfl
  | c :: r, h, acc => by
    have hc : c.toNat < 128 := h c (List.mem_cons_self c r)
    have hr : allAscii r := fun x hx => h x (List.mem_cons_of_mem c hx)
    rw [rfindCharByte, rfindIdx, u8_of_ascii hc, rfindIdx_of_ascii p r hr (acc + 1)]
    cases rfindIdx p r with
    | none =>
      show (if p c then some acc else none) = (if p c then some 0 else none).map (· + acc)
      split <;> simp
    | some i =>
      show some (i + (acc + 1)) = some (i + 1 + acc)
      congr 1
      omega

theorem skipNl_of_ascii {s : List Char} (h : allAscii s) (k : Nat) :
    skipNl s k = skipNlIdx s k := by
  have hL : byteLen s = s.length := byteLen_of_ascii h
  have : ∀ fuel k, skipNlAux s fuel k = skipNlIdxAux s fuel k := by
    intro fuel
    induction fuel with
    | zero => intro k; rfl
    | succ n ih =>
      intro k
      rw [skipNlAux, skipNlIdxAux, hL]
      split
      · exact ih (k + 1)
      · rfl
  unfold skipNl skipNlIdx
  rw [hL, this]

/-- C4 as amended: on an ASCII buffer with no code-fence, table-row or
paragraph cut and at least chunk-size bytes buffered, `find_flush_boundary`
computes exactly the specification's ordered size-threshold search with
the whitespace threshold read strictly (position strictly greater than
`3·chunk-size/4`, integer division). -/
theorem size_rule_matches_strict_spec (chunkSize : Nat) (s : List Char)
    (hA : allAscii s)
    (h1 : fenceRule s = none) (h2 : tableRowRule s = none) (h3 : paragraphRule s = none)
    (h4 : chunkSize ≤ byteLen s) :
    some (find_flush_boundary chunkSize s) = sizeRuleSpec true chunkSize s := by
  have hL : byteLen s = s.length := byteLen_of_ascii hA
  have hW : bytesPrefix chunkSize s = s.take chunkSize := by
    unfold bytesPrefix
    rw [charsWithin_of_ascii hA]
    rcases Nat.le_total chunkSize s.length with hc | hc
    · rw [Nat.min_eq_left hc]
    · rw [Nat.min_eq_right hc, List.take_length, List.take_of_length_le hc]
  have hWA : allAscii (s.take chunkSize) :=
    allAscii_sub hA fun c hc => List.mem_of_mem_take hc
  have hfind : find_flush_boundary chunkSize s =
      match sizeRule chunkSize s with
      | some v => v
      | none => 0 := by
    unfold find_flush_boundary
    simp only [h1, h2, h3]
  have hsz : sizeRule chunkSize s = sizeRuleSpec true chunkSize s := by
    unfold sizeRule sizeRuleSpec
    rw [if_pos h4, if_pos (hL ▸ h4)]
    simp only [hW, rlastMatchIdx_of_ascii ((". ").data) _ hWA 0,
      rfindIdx_of_ascii isTermPunct _ hWA 0,
      rlastMatchIdx_of_ascii ((", ").data) _ hWA 0,
      rlastMatchIdx_of_ascii ((" - ").data) _ hWA 0,
      rfindIdx_of_ascii rustWs _ hWA 0, hL, skipNl_of_ascii hA,
      Nat.add_zero, if_true, Option.map_id']
  rw [hfind, hsz]
  cases hv : sizeRuleSpec true chunkSize s with
  | none =>
    exfalso
    unfold sizeRuleSpec at hv
    rw [if_pos (hL ▸ h4)] at hv
    cases hv
  | some v => rfl

/-- Witness for C4: the specification's own hard-cut example — chunk-size
10 against `"0123456789abcdefghij"` — satisfies the hypotheses, and both
the code and the strict specification cut exactly at index 10. -/
theorem size_rule_matches_strict_spec_witness :
    allAscii (("0123456789abcdefghij").data) ∧
    fenceRule (("0123456789abcdefghij").data) = none ∧
    tableRowRule (("0123456789abcdefghij").data) = none ∧
    paragraphRule (("0123456789abcdefghij").data) = none ∧
    10 ≤ byteLen (("0123456789abcdefghij").data) ∧
    some (find_flush_boundary 10 (("0123456789abcdefghij").data)) =
      sizeRuleSpec true 10 (("0123456789abcdefghij").data) ∧
    find_flush_boundary 10 (("0123456789abcdefghij").data) = 10 :=
  ⟨by decide, by decide, by decide, by decide, by decide,
    size_rule_matches_strict_spec 10 (("0123456789abcdefghij").data) (by decide)
      (by decide) (by decide) (by decide) (by decide),
    by decide⟩

end ClaimC4

section ClaimC7

set_option maxHeartbeats 1000000 in
theorem step_preserves (s : RenderState) (flag : Bool) (e : MdEvent)
    (hInv : renderInv s) (hFlag : s.inCodeBlock = true → flag = true)
    (hAllow : evAllowed flag e = true) :
    renderInv (step s e) ∧ ((step s e).inCodeBlock = true → nextFlag flag e = true) := by
  obtain ⟨⟨hTH, hHC⟩, hHB⟩ := hInv
  unfold renderInv exclusiveAccum
  by_cases hT : s.inTable = true
  · have hH := (hTH hT).1
    have hC := (hTH hT).2
    rw [step, if_pos hT]
    cases e <;>
      simp only [stepTable] <;>
      (try split_ifs) <;>
      simp_all [nextFlag, evAllowed]
  · rw [step, if_neg hT]
    have hT' : s.inTable = false := by simpa using hT
    cases e <;>
      simp only [stepMain, flushHeader, flushList] <;>
      (try split_ifs) <;>
      (try split) <;>
      simp_all [nextFlag, evAllowed]

theorem runRender_take_inv :
    ∀ (evs : List MdEvent) (flag : Bool) (s : RenderState),
      renderInv s → (s.inCodeBlock = true → flag = true) → okEvents flag evs = true →
      ∀ n, renderInv (runRender s (evs.take n)) := by
  intro evs
  induction evs with
  | nil =>
    intro flag s h1 _ _ n
    simpa [runRender] using h1
  | cons e r ih =>
    intro flag s h1 h2 h3 n
    cases n with
    | zero => simpa [runRender] using h1
    | succ m =>
      rw [okEvents, Bool.and_eq_true] at h3
      have hstep := step_preserves s flag e h1 h2 h3.1
      simp only [List.take_succ_cons, runRender]
      exact ih (nextFlag flag e) (step s e) hstep.1 hstep.2 h3.2 m

/-- C7: along any event stream that is well-formed with respect to code
blocks (inside an open code block the Markdown parser emits only text and
the block's end event), every state the renderer reaches from its initial
state — after any number of processed events — keeps at most one of the
table, heading and code-block accumulators open: `in_table`, `in_header`
and `in_code_block` are never simultaneously true, because entering a
table, heading or code block first flushes and closes the accumulators the
code checks for. -/
theorem renderer_accumulators_exclusive
    (evs : List MdEvent) (n : Nat) (hok : okEvents false evs = true) :
    renderInv (runRender initRender (evs.take n)) :=
  runRender_take_inv evs false initRender (by decide) (by decide) hok n

/-- Witness for C7: a concrete well-formed stream — a heading followed by a
code block — checked after four processed events (the state right after
the code block opened). -/
theorem renderer_accumulators_exclusive_witness :
    okEvents false
      [MdEvent.startHeading 2, MdEvent.text (("T").data), MdEvent.endHeading,
        MdEvent.startCodeBlock true (("rust").data), MdEvent.text (("x").data),
        MdEvent.endCodeBlock] = true ∧
    renderInv (runRender initRender
      ([MdEvent.startHeading 2, MdEvent.text (("T").data), MdEvent.endHeading,
        MdEvent.startCodeBlock true (("rust").data), MdEvent.text (("x").data),
        MdEvent.endCodeBlock].take 4)) :=
  ⟨by decide,
    renderer_accumulators_exclusive
      [MdEvent.startHeading 2, MdEvent.text (("T").data), MdEvent.endHeading,
        MdEvent.startCodeBlock true (("rust").data), MdEvent.text (("x").data),
        MdEvent.endCodeBlock] 4 (by decide)⟩

end ClaimC7

section ClaimC1

theorem byteTake_append_byteDrop (b : Nat) (s : List Char) :
    byteTake b s ++ byteDrop b s = s :=
  List.take_append_drop _ _

theorem drainLoop_conserve (chunkSize : Nat) :
    ∀ (fuel : Nat) (buf : List Char),
      (drainLoop chunkSize fuel buf).1.flatten ++ (drainLoop chunkSize fuel buf).2 = buf := by
  intro fuel
  induction fuel with
  | zero => intro buf; simp [drainLoop]
  | succ n ih =>
    intro buf
    rw [drainLoop]
    split
    · simp only [List.flatten_cons, List.append_assoc]
      rw [ih]
      exact byteTake_append_byteDrop _ _
    · simp

theorem drainLoop_rem_mem (chunkSize : Nat) :
    ∀ (fuel : Nat) (buf : List Char) (c : Char),
      c ∈ (drainLoop chunkSize fuel buf).2 → c ∈ buf := by
  intro fuel
  induction fuel with
  | zero => intro buf c h; simpa [drainLoop] using h
  | succ n ih =>
    intro buf c h
    rw [drainLoop] at h
    split at h
    · exact List.mem_of_mem_drop (ih _ c h)
    · simpa using h

theorem byteSliceStr_of_ascii {s : List Char} (h : allAscii s) {a b : Nat}
    (ha : a ≤ s.length) (hb : b ≤ s.length) :
    byteSliceStr s a b = (s.take b).drop a := by
  unfold byteSliceStr
  rw [isBoundary_of_ascii h, isBoundary_of_ascii h,
    charsWithin_of_ascii h, charsWithin_of_ascii h,
    Nat.min_eq_left ha, Nat.min_eq_left hb]
  simp [ha, hb]

theorem take_drop_chain {s : List Char} {pos e : Nat} (hpe : pos ≤ e) :
    (s.take e).drop pos ++ s.drop e = s.drop pos := by
  rw [List.drop_take]
  have h1 : s.drop e = (s.drop pos).drop (e - pos) := by
    rw [List.drop_drop]
    congr 1
    omega
  rw [h1]
  exact List.take_append_drop _ _

theorem streamLoop_conserve (chunkSize : Nat) (text : List Char)
    (hTA : allAscii text) (hTE : noEsc text) :
    ∀ (fuel pos : Nat) (buffer : List Char), allAscii buffer → noEsc buffer →
      pos ≤ text.length → text.length - pos ≤ fuel →
      (streamLoop false chunkSize text fuel pos buffer).1.flatten ++
        (streamLoop false chunkSize text fuel pos buffer).2 = buffer ++ text.drop pos := by
  have hL : byteLen text = text.length := byteLen_of_ascii hTA
  intro fuel
  induction fuel with
  | zero =>
    intro pos buffer hBA hBE hpos hfuel
    have hge : text.length ≤ pos := by omega
    simp [streamLoop, List.drop_eq_nil_of_le hge]
  | succ n ih =>
    intro pos buffer hBA hBE hpos hfuel
    rw [streamLoop]
    by_cases hlt : pos < byteLen text
    · rw [if_pos hlt]
      simp only []
      have hlt' : pos < text.length := hL ▸ hlt
      have he2 : min (pos + 240) (byteLen text) ≤ text.length := by
        rw [hL]; omega
      have he1 : pos ≤ min (pos + 240) (byteLen text) := by
        rw [hL]; omega
      have he3 : pos < min (pos + 240) (byteLen text) := by
        rw [hL]; omega
      have hslice : byteSliceStr text pos (min (pos + 240) (byteLen text)) =
          (text.take (min (pos + 240) (byteLen text))).drop pos :=
        byteSliceStr_of_ascii hTA (le_of_lt hlt') he2
      have hchunkA : allAscii ((text.take (min (pos + 240) (byteLen text))).drop pos) :=
        allAscii_sub hTA fun c hc => List.mem_of_mem_take (List.mem_of_mem_drop hc)
      have hchunkE : noEsc ((text.take (min (pos + 240) (byteLen text))).drop pos) :=
        noEsc_sub hTE fun c hc => List.mem_of_mem_take (List.mem_of_mem_drop hc)
      have hsan : sanitizeBuffer false
          (buffer ++ byteSliceStr text pos (min (pos + 240) (byteLen text))) =
          buffer ++ (text.take (min (pos + 240) (byteLen text))).drop pos := by
        rw [hslice]
        show strip_ansi _ = _
        exact strip_ansi_of_noEsc (noEsc_append hBE hchunkE)
      rw [hsan]
      set bc := buffer ++ (text.take (min (pos + 240) (byteLen text))).drop pos with hbc
      have hbcA : allAscii bc := allAscii_append hBA hchunkA
      have hbcE : noEsc bc := noEsc_append hBE hchunkE
      set d := drainLoop chunkSize (byteLen bc + 1) bc with hd
      have hdc : d.1.flatten ++ d.2 = bc := drainLoop_conserve _ _ _
      have hdA : allAscii d.2 := allAscii_sub hbcA fun c hc => drainLoop_rem_mem _ _ _ c hc
      have hdE : noEsc d.2 := noEsc_sub hbcE fun c hc => drainLoop_rem_mem _ _ _ c hc
      have hrec := ih (min (pos + 240) (byteLen text)) d.2 hdA hdE he2 (by rw [hL]; omega)
      simp only [List.flatten_append, List.append_assoc]
      rw [hrec, ← List.append_assoc, hdc, hbc, List.append_assoc,
        take_drop_chain he1]
    · rw [if_neg hlt]
      have hge : text.length ≤ pos := by omega
      simp [List.drop_eq_nil_of_le hge]

/-- C1 counterexample: for the input `" "` (one space, box stripping
disabled, default chunk size) nothing is ever handed to the renderer — the
boundary search never cuts and the final whitespace-only remainder is
discarded by the `!buffer.trim().is_empty()` guard — so the concatenation
of the rendered segments is empty while the sanitized input is `" "`. -/
theorem stream_text_loses_trailing_whitespace :
    renderedSegments false 150 ([' ']) = [] ∧
    strip_ansi ([' ']) = [' '] ∧
    (renderedSegments false 150 ([' '])).flatten ≠ strip_ansi ([' ']) := by
  refine ⟨by decide, by decide, by decide⟩

/-- C1 as amended: for every ASCII input containing no escape character,
with box stripping disabled, the concatenation of all segments handed to
the renderer, followed by the discarded remainder, equals the sanitized
(ANSI-stripped) input — and the discarded remainder is non-empty only when
the leftover buffer is whitespace-only (otherwise the leftover is itself
rendered as the final segment).  So no text is lost or duplicated across
flush boundaries, except that a whitespace-only final remainder is dropped
instead of rendered. -/
theorem stream_text_segments_conserve_input (chunkSize : Nat) (text : List Char)
    (hA : allAscii text) (hE : noEsc text) :
    (renderedSegments false chunkSize text).flatten ++
        droppedRemainder false chunkSize text = strip_ansi text ∧
    (∀ c ∈ droppedRemainder false chunkSize text, rustWs c = true) := by
  have hL : byteLen text = text.length := byteLen_of_ascii hA
  have hmain : (stream_text false chunkSize text).1.flatten ++
      (stream_text false chunkSize text).2 = text := by
    unfold stream_text
    have := streamLoop_conserve chunkSize text hA hE (byteLen text + 1) 0 []
      (by intro c hc; cases hc) (by intro hc; cases hc) (by omega) (by omega)
    simpa using this
  have hsa : strip_ansi text = text := strip_ansi_of_noEsc hE
  rw [hsa]
  unfold renderedSegments droppedRemainder
  by_cases htr : rustTrim (stream_text false chunkSize text).2 = []
  · rw [if_neg (by simpa using htr), if_pos htr]
    exact ⟨hmain, fun c hc => rustTrim_eq_nil_all_ws htr c hc⟩
  · rw [if_pos (by simpa using htr), if_neg htr]
    constructor
    · simpa using hmain
    · intro c hc
      cases hc

/-- Witness for C1: a concrete ASCII, escape-free input whose streaming
segments concatenate back to the sanitized input. -/
theorem stream_text_segments_conserve_input_witness :
    allAscii (("ab. cd. ef").data) ∧ noEsc (("ab. cd. ef").data) ∧
    (renderedSegments false 5 (("ab. cd. ef").data)).flatten ++
        droppedRemainder false 5 (("ab. cd. ef").data) = strip_ansi (("ab. cd. ef").data) ∧
    renderedSegments false 5 (("ab. cd. ef").data) =
      [("ab. ").data, ("cd. ").data, ("ef").data] :=
  ⟨by decide, by decide,
    (stream_text_segments_conserve_input 5 (("ab. cd. ef").data) (by decide) (by decide)).1,
    by decide⟩

end ClaimC1

end LiveMd
